import Mathlib

/-!
Shallow embedding of the board state-management core of the Eisenhower-Matrix
application (src/components/Eisenhower-Matrix/EisenhowerMatrix.tsx).

The in-memory data model (`QuadrantKey`, `Task`, `BoardState`), the board
operations (`addTask`, `updateTask`, `deleteTask`, `clearCompleted`,
`moveTask`, reset), and the persistence adapter (`loadState`, `saveState`)
are translated directly from the TypeScript source.  Effects that the source
obtains from the environment are passed explicitly: the freshly generated id
(`uid()`) and the creation timestamp (`Date.now()`) become arguments of
`addTask`; the browser's localStorage slot becomes an explicit value threaded
through `loadState` / `saveState`.
-/

namespace Eisenhower

/-- JavaScript `String.prototype.trim()`: strips leading and trailing
whitespace characters. -/
def jsTrim (s : String) : String :=
  ⟨((s.data.dropWhile Char.isWhitespace).reverse.dropWhile Char.isWhitespace).reverse⟩

/-- The quadrant keys, `type QuadrantKey = "do" | "schedule" | "delegate" | "eliminate"`. -/
inductive QuadrantKey where
  | «do»
  | schedule
  | delegate
  | eliminate
deriving DecidableEq, Repr

/-- The `Task` record type.  `notes?` and `dueDate?` are optional fields;
`createdAt` is an epoch-milliseconds number (`Date.now()`), modelled as an
integer. -/
structure Task where
  id : String
  title : String
  notes : Option String
  done : Bool
  createdAt : Int
  dueDate : Option String
deriving DecidableEq, Repr

/-- The board, `type BoardState = Record<QuadrantKey, Task[]>`: a record with exactly the
four quadrant keys, each holding a sequence of tasks. -/
structure BoardState where
  «do» : List Task
  schedule : List Task
  delegate : List Task
  eliminate : List Task
deriving DecidableEq, Repr

/-- Property read `state[q]`. -/
def BoardState.get (b : BoardState) : QuadrantKey → List Task
  | .«do» => b.«do»
  | .schedule => b.schedule
  | .delegate => b.delegate
  | .eliminate => b.eliminate

/-- The computed-key record update `{ ...state, [q]: l }`. -/
def BoardState.set (b : BoardState) (q : QuadrantKey) (l : List Task) : BoardState :=
  match q with
  | .«do» => { b with «do» := l }
  | .schedule => { b with schedule := l }
  | .delegate => { b with delegate := l }
  | .eliminate => { b with eliminate := l }

/-- Embedding of `const emptyBoard = () => ({ do: [], schedule: [], delegate: [], eliminate: [] })`. -/
def emptyBoard : BoardState :=
  { «do» := [], schedule := [], delegate := [], eliminate := [] }

/-- A value of `Partial<Task>`: each property is either absent (`none`) or
present with a value of the field's type.  For the optional properties
`notes` / `dueDate` a present value is itself an `Option`, since the patch
may explicitly set them to `undefined` (the UI edit path does exactly that
to clear them). -/
structure TaskPatch where
  id : Option String := none
  title : Option String := none
  notes : Option (Option String) := none
  done : Option Bool := none
  createdAt : Option Int := none
  dueDate : Option (Option String) := none
deriving DecidableEq, Repr

/-- The object spread `{ ...t, ...patch }`: every property present in the
patch overrides the task's property, every absent one is kept. -/
def mergeTask (t : Task) (p : TaskPatch) : Task :=
  { id := p.id.getD t.id
    title := p.title.getD t.title
    notes := p.notes.getD t.notes
    done := p.done.getD t.done
    createdAt := p.createdAt.getD t.createdAt
    dueDate := p.dueDate.getD t.dueDate }

/-- Embedding of `addTask(q, title, notes?, dueDate?)` (EisenhowerMatrix.tsx:131-153).
`newId` stands for the `uid()` call and `now` for `Date.now()`.
`notes?.trim() || undefined` stores the trimmed notes, or absent when the
notes are missing or trim to empty; `dueDate || undefined` turns the empty
string into absent. -/
def addTask (q : QuadrantKey) (title : String) (notes : Option String)
    (dueDate : Option String) (newId : String) (now : Int) (b : BoardState) :
    BoardState :=
  let clean := jsTrim title
  if clean = "" then b
  else
    let task : Task :=
      { id := newId
        title := clean
        notes := match notes with
          | none => none
          | some s => if jsTrim s = "" then none else some (jsTrim s)
        dueDate := match dueDate with
          | none => none
          | some s => if s = "" then none else some s
        done := false
        createdAt := now }
    b.set q (task :: b.get q)

/-- Embedding of `updateTask(q, taskId, patch)` (EisenhowerMatrix.tsx:155-160): maps over
the quadrant's sequence, merging the patch into every task whose id matches. -/
def updateTask (q : QuadrantKey) (taskId : String) (patch : TaskPatch)
    (b : BoardState) : BoardState :=
  b.set q ((b.get q).map (fun t => if t.id = taskId then mergeTask t patch else t))

/-- Embedding of `deleteTask(q, taskId)` (EisenhowerMatrix.tsx:162-167). -/
def deleteTask (q : QuadrantKey) (taskId : String) (b : BoardState) : BoardState :=
  b.set q ((b.get q).filter (fun t => t.id ≠ taskId))

/-- Embedding of `clearCompleted(q)` (EisenhowerMatrix.tsx:169-174). -/
def clearCompleted (q : QuadrantKey) (b : BoardState) : BoardState :=
  b.set q ((b.get q).filter (fun t => !t.done))

/-- Embedding of `moveTask(from, to, taskId)` (EisenhowerMatrix.tsx:176-189).  Here `from` is a
Lean keyword, hence the argument names `fromQ` / `toQ`. -/
def moveTask (fromQ toQ : QuadrantKey) (taskId : String) (b : BoardState) :
    BoardState :=
  if fromQ = toQ then b
  else
    match (b.get fromQ).find? (fun t => t.id == taskId) with
    | none => b
    | some task =>
        (b.set fromQ ((b.get fromQ).filter (fun t => t.id ≠ taskId))).set toQ
          (task :: b.get toQ)

/-- The board part of `confirmReset` (EisenhowerMatrix.tsx:191-199):
`setBoard(emptyBoard())`. -/
def resetAll (_b : BoardState) : BoardState :=
  emptyBoard

/-! The persistence adapter.

`localStorage` holds at most one raw string under the fixed key
`eisenhower_matrix_v1`.  A raw string is observable only through
`JSON.parse`, which either fails or yields a JSON value, so the stored slot
is modelled as `Option (Option Json)`: `none` when no value is stored,
`some none` when a value is stored whose parse throws, and `some (some j)`
when the stored value parses to the JSON value `j`.  `JSON.stringify`
followed by `JSON.parse` is the identity on JSON values, so `saveState`
writes the JSON image of the board directly into the slot. -/

/-- JSON values (numbers modelled as integers; all numbers the program
writes are integers). -/
inductive Json where
  | null
  | bool (b : Bool)
  | num (n : Int)
  | str (s : String)
  | arr (elems : List Json)
  | obj (fields : List (String × Json))

/-- JavaScript truthiness of a JSON value: `false`, `0`, `""` and `null`
are falsy; every array and object (even empty) is truthy. -/
def Json.truthy : Json → Bool
  | .null => false
  | .bool b => b
  | .num n => n != 0
  | .str s => s != ""
  | .arr _ => true
  | .obj _ => true

/-- Property access `j.k`: defined on objects, `undefined` (here `none`)
on everything else. -/
def Json.getField : Json → String → Option Json
  | .obj fields, k => fields.lookup k
  | _, _ => none

/-- Truthiness of the property access `parsed[k]`: a missing property is
`undefined`, which is falsy. -/
def Json.truthyField (j : Json) (k : String) : Bool :=
  match j.getField k with
  | none => false
  | some v => v.truthy

/-- Embedding of `loadState()` (EisenhowerMatrix.tsx:67-84) over the modelled slot:
missing value → `null`; parse failure → `null` (the `catch` branch);
otherwise the basic shape check — if any of `parsed.do`, `parsed.schedule`,
`parsed.delegate`, `parsed.eliminate` is falsy, `null`, else the parsed
value itself is returned, unvalidated. -/
def loadState (slot : Option (Option Json)) : Option Json :=
  match slot with
  | none => none
  | some none => none
  | some (some parsed) =>
      if !(parsed.truthyField "do") || !(parsed.truthyField "schedule") ||
          !(parsed.truthyField "delegate") || !(parsed.truthyField "eliminate")
      then none
      else some parsed

/-- Serialization of one task, `JSON.stringify` style: optional properties
holding `undefined` are omitted; property order follows the object literal
in `addTask`. -/
def taskToJson (t : Task) : Json :=
  Json.obj
    ([("id", Json.str t.id), ("title", Json.str t.title)]
      ++ (match t.notes with
          | none => []
          | some s => [("notes", Json.str s)])
      ++ (match t.dueDate with
          | none => []
          | some s => [("dueDate", Json.str s)])
      ++ [("done", Json.bool t.done), ("createdAt", Json.num t.createdAt)])

/-- Serialization of the whole board. -/
def boardToJson (b : BoardState) : Json :=
  Json.obj
    [("do", Json.arr (b.«do».map taskToJson)),
     ("schedule", Json.arr (b.schedule.map taskToJson)),
     ("delegate", Json.arr (b.delegate.map taskToJson)),
     ("eliminate", Json.arr (b.eliminate.map taskToJson))]

/-- Embedding of `saveState(state)` (EisenhowerMatrix.tsx:86-92): writes
`JSON.stringify(state)` to the fixed key (successful-write behaviour; a
throwing write is swallowed and leaves the slot unchanged, which no claim
here exercises). -/
def saveState (b : BoardState) (_slot : Option (Option Json)) :
    Option (Option Json) :=
  some (some (boardToJson b))

/-- Reads a serialized task back.  This decoder inverts `taskToJson`; it is
used to state deep equality between a JSON value kept by `loadState` and an
in-memory board (the serialized shape of §6 of the spec). -/
def jsonToTask (j : Json) : Option Task :=
  match j.getField "id", j.getField "title", j.getField "done",
      j.getField "createdAt" with
  | some (.str i), some (.str ti), some (.bool d), some (.num c) =>
      some
        { id := i
          title := ti
          notes := match j.getField "notes" with
            | some (.str s) => some s
            | _ => none
          done := d
          createdAt := c
          dueDate := match j.getField "dueDate" with
            | some (.str s) => some s
            | _ => none }
  | _, _, _, _ => none

/-- Reads a serialized quadrant (an array of tasks) back. -/
def jsonToTasks : Json → Option (List Task)
  | .arr elems => go elems
  | _ => none
where
  go : List Json → Option (List Task)
    | [] => some []
    | j :: rest =>
        match jsonToTask j, go rest with
        | some t, some ts => some (t :: ts)
        | _, _ => none

/-- Reads a serialized board back; `none` when the JSON value is not a
well-formed board. -/
def jsonToBoard (j : Json) : Option BoardState :=
  match jsonToTasks ((j.getField "do").getD .null),
      jsonToTasks ((j.getField "schedule").getD .null),
      jsonToTasks ((j.getField "delegate").getD .null),
      jsonToTasks ((j.getField "eliminate").getD .null) with
  | some d, some s, some g, some e =>
      some { «do» := d, schedule := s, delegate := g, eliminate := e }
  | _, _, _, _ => none

/-! Operation sequences and reachable states.

One `Op` records one invocation of a board operation together with the
values the environment supplied during that invocation (the generated id
and the timestamp for `addTask`).  A board is reachable when it is
`runOps ops` for some sequence `ops`. -/

/-- One invocation of a board operation. -/
inductive Op where
  | add (q : QuadrantKey) (title : String) (notes dueDate : Option String)
      (newId : String) (now : Int)
  | update (q : QuadrantKey) (taskId : String) (patch : TaskPatch)
  | del (q : QuadrantKey) (taskId : String)
  | clear (q : QuadrantKey)
  | move (fromQ toQ : QuadrantKey) (taskId : String)
  | reset
deriving DecidableEq, Repr

/-- Dispatch one invocation to the corresponding operation. -/
def applyOp (b : BoardState) : Op → BoardState
  | .add q title notes dueDate newId now => addTask q title notes dueDate newId now b
  | .update q taskId patch => updateTask q taskId patch b
  | .del q taskId => deleteTask q taskId b
  | .clear q => clearCompleted q b
  | .move fromQ toQ taskId => moveTask fromQ toQ taskId b
  | .reset => resetAll b

/-- The board reached from the empty board by a sequence of invocations. -/
def runOps (ops : List Op) : BoardState :=
  ops.foldl applyOp emptyBoard

/-- All tasks on the board, in quadrant order (the flattening used by the
`totals` derived view). -/
def allTasks (b : BoardState) : List Task :=
  b.«do» ++ b.schedule ++ b.delegate ++ b.eliminate

/-- The ids of all tasks on the board. -/
def boardIds (b : BoardState) : List String :=
  (allTasks b).map Task.id

/-- The ids handed to `addTask` by an invocation (`uid()` results). -/
def Op.newIds : Op → List String
  | .add _ _ _ _ newId _ => [newId]
  | .update _ _ _ => []
  | .del _ _ => []
  | .clear _ => []
  | .move _ _ _ => []
  | .reset => []

/-- All `uid()` results of a sequence of invocations. -/
def opsNewIds (ops : List Op) : List String :=
  ops.foldr (fun op acc => op.newIds ++ acc) []

/-- Does this invocation patch the `id` field of a task? -/
def Op.patchesId : Op → Bool
  | .add _ _ _ _ _ _ => false
  | .update _ _ p => p.id.isSome
  | .del _ _ => false
  | .clear _ => false
  | .move _ _ _ => false
  | .reset => false

/-- Does this invocation keep the title discipline of the UI?  The UI only
calls `updateTask` from the done-checkbox (no title in the patch) and from
`saveEdit`, which sends `title: draftTitle.trim()` and only when that trim
is non-empty. -/
def Op.uiTitle : Op → Bool
  | .add _ _ _ _ _ _ => true
  | .update _ _ p =>
      match p.title with
      | none => true
      | some s => jsTrim s == s && s != ""
  | .del _ _ => true
  | .clear _ => true
  | .move _ _ _ => true
  | .reset => true

/-- Embedding of `saveEdit` in `TaskRow` (EisenhowerMatrix.tsx:510-519): trims the draft
title, does nothing when it is blank, and otherwise sends a patch carrying
the trimmed title, `draftNotes.trim() || undefined` and
`draftDue || undefined` (the latter two properties are present in the patch
object, possibly holding `undefined`). -/
def saveEdit (q : QuadrantKey) (taskId : String)
    (draftTitle draftNotes draftDue : String) (b : BoardState) : BoardState :=
  let clean := jsTrim draftTitle
  if clean = "" then b
  else
    updateTask q taskId
      { title := some clean
        notes := some (if jsTrim draftNotes = "" then none else some (jsTrim draftNotes))
        dueDate := some (if draftDue = "" then none else some draftDue) } b

/-! The component lifecycle.

The component (EisenhowerMatrix.tsx:103-121) keeps `board` and a `hydrated`
flag.  The mount effect (lines 112-116) runs once: it calls `loadState`,
installs the loaded board if one was returned, and sets `hydrated`.  The
save effect (lines 118-121) runs after every change of `board` or
`hydrated` and does nothing until `hydrated` is true.  This is modelled as
a transition system over `StoreState`; the `saves` field logs every
`saveState` call, newest first.  (`loadState`'s unvalidated cast is modelled
by decoding the kept JSON value and installing it only when it is a
well-formed board; the shallowness of the actual check is treated
separately, by the theorems about `loadState` itself.) -/

/-- The component state: the board, the hydration flag, the storage slot,
and the log of snapshots written so far. -/
structure StoreState where
  board : BoardState
  hydrated : Bool
  slot : Option (Option Json)
  saves : List Json

/-- The state at first render: an empty board, not hydrated, nothing saved. -/
def initStore (slot : Option (Option Json)) : StoreState :=
  { board := emptyBoard, hydrated := false, slot := slot, saves := [] }

/-- The save effect (EisenhowerMatrix.tsx:118-121): `if (!hydrated) return;
saveState(board)`. -/
def saveEffect (s : StoreState) : StoreState :=
  if s.hydrated then
    { s with
      slot := saveState s.board s.slot
      saves := boardToJson s.board :: s.saves }
  else s

/-- An externally triggered transition: the one-time mount effect, or a
user-initiated mutation. -/
inductive Evt where
  | hydrate
  | mutate (op : Op)
deriving DecidableEq, Repr

/-- One transition: the state update followed by the save effect (React
re-renders and then runs the effects of that render). -/
def stepEvt (s : StoreState) : Evt → StoreState
  | .hydrate =>
      let b :=
        match (loadState s.slot).bind jsonToBoard with
        | some loaded => loaded
        | none => s.board
      saveEffect { s with board := b, hydrated := true }
  | .mutate op => saveEffect { s with board := applyOp s.board op }

/-- The component state after a sequence of transitions from first render. -/
def runEvts (slot : Option (Option Json)) (evts : List Evt) : StoreState :=
  evts.foldl stepEvt (initStore slot)

/-! Basic lemmas about the board representation. -/

theorem get_set_same (b : BoardState) (q : QuadrantKey) (l : List Task) :
    (b.set q l).get q = l := by
  cases q <;> rfl

theorem get_set_of_ne (b : BoardState) {q q' : QuadrantKey} (l : List Task)
    (h : q' ≠ q) : (b.set q l).get q' = b.get q' := by
  cases q <;> cases q' <;> first | rfl | exact absurd rfl h

theorem set_get_self (b : BoardState) (q : QuadrantKey) :
    b.set q (b.get q) = b := by
  cases q <;> rfl

/-- A board is determined by its four quadrant reads. -/
theorem boardState_ext {b b' : BoardState}
    (h : ∀ q, b.get q = b'.get q) : b = b' := by
  cases b
  cases b'
  have hd := h .«do»
  have hs := h .schedule
  have hg := h .delegate
  have he := h .eliminate
  simp only [BoardState.get] at hd hs hg he
  simp [hd, hs, hg, he]

/-- In a sequence of tasks with pairwise-distinct ids, a task with id `x`
splits the sequence into a prefix and a suffix that avoid `x`. -/
theorem decomp_of_mem_of_nodup {l : List Task} {tk : Task} {x : String}
    (hmem : tk ∈ l) (hid : tk.id = x) (hids : (l.map Task.id).Nodup) :
    ∃ l₁ l₂, l = l₁ ++ tk :: l₂ ∧ (∀ u ∈ l₁, u.id ≠ x) ∧ ∀ u ∈ l₂, u.id ≠ x := by
  induction l with
  | nil => cases hmem
  | cons a l ih =>
      rw [List.map_cons, List.nodup_cons] at hids
      obtain ⟨hanotin, hnodup⟩ := hids
      rcases List.mem_cons.mp hmem with rfl | hmem'
      · refine ⟨[], l, rfl, by simp, ?_⟩
        intro u hu hux
        exact hanotin (hid ▸ hux ▸ List.mem_map_of_mem Task.id hu)
      · obtain ⟨l₁, l₂, hdec, h₁, h₂⟩ := ih hmem' hnodup
        have hax : a.id ≠ x := fun h =>
          hanotin (h ▸ hid ▸ List.mem_map_of_mem Task.id hmem')
        refine ⟨a :: l₁, l₂, by rw [hdec]; rfl, ?_, h₂⟩
        intro u hu
        rcases List.mem_cons.mp hu with rfl | hu'
        · exact hax
        · exact h₁ u hu'

theorem find?_id_of_decomp {l₁ l₂ : List Task} {tk : Task} {x : String}
    (hid : tk.id = x) (h₁ : ∀ u ∈ l₁, u.id ≠ x) :
    (l₁ ++ tk :: l₂).find? (fun t => t.id == x) = some tk := by
  rw [List.find?_append]
  have hnone : l₁.find? (fun t => t.id == x) = none := by
    rw [List.find?_eq_none]
    intro u hu
    simpa using h₁ u hu
  rw [hnone]
  simp [List.find?_cons, hid]

theorem filter_ne_of_decomp {l₁ l₂ : List Task} {tk : Task} {x : String}
    (hid : tk.id = x) (h₁ : ∀ u ∈ l₁, u.id ≠ x) (h₂ : ∀ u ∈ l₂, u.id ≠ x) :
    (l₁ ++ tk :: l₂).filter (fun t => t.id ≠ x) = l₁ ++ l₂ := by
  have e₁ : l₁.filter (fun t => t.id ≠ x) = l₁ :=
    List.filter_eq_self.mpr (fun u hu => by simpa using h₁ u hu)
  have e₂ : l₂.filter (fun t => t.id ≠ x) = l₂ :=
    List.filter_eq_self.mpr (fun u hu => by simpa using h₂ u hu)
  have hcond : (decide (tk.id ≠ x)) = false := by simp [hid]
  rw [List.filter_append, e₁, List.filter_cons, hcond,
    if_neg Bool.false_ne_true, e₂]

theorem erase_of_decomp {l₁ l₂ : List Task} {tk : Task} {x : String}
    (hid : tk.id = x) (h₁ : ∀ u ∈ l₁, u.id ≠ x) :
    (l₁ ++ tk :: l₂).erase tk = l₁ ++ l₂ := by
  have htknot : tk ∉ l₁ := fun h => h₁ tk h hid
  rw [List.erase_append_right _ htknot, List.erase_cons_head]

/-- C1: `moveTask` is a no-op when the source and target quadrants coincide,
and when no task with the given id is in the source quadrant; otherwise it
removes the task with that id from the source quadrant's sequence and
prepends that very task, unchanged, to the front of the target quadrant's
sequence, leaving the other two quadrants unchanged.  (The board is assumed
well-formed in the sense that the source quadrant's task ids are pairwise
distinct.) -/
theorem moveTask_spec (b : BoardState) (f t : QuadrantKey) (x : String)
    (hids : ((b.get f).map Task.id).Nodup) :
    (f = t → moveTask f t x b = b) ∧
    ((f ≠ t ∧ ∀ u ∈ b.get f, u.id ≠ x) → moveTask f t x b = b) ∧
    (∀ tk, f ≠ t → tk ∈ b.get f → tk.id = x →
      (moveTask f t x b).get f = (b.get f).erase tk ∧
      (moveTask f t x b).get t = tk :: b.get t ∧
      ∀ q, q ≠ f → q ≠ t → (moveTask f t x b).get q = b.get q) := by
  refine ⟨fun hft => by simp [moveTask, hft], ?_, ?_⟩
  · rintro ⟨hft, habs⟩
    have hnone : (b.get f).find? (fun u => u.id == x) = none := by
      rw [List.find?_eq_none]
      intro u hu
      simpa using habs u hu
    simp [moveTask, hft, hnone]
  · intro tk hft hmem hid
    obtain ⟨l₁, l₂, hdec, h₁, h₂⟩ := decomp_of_mem_of_nodup hmem hid hids
    have hfind : (b.get f).find? (fun u => u.id == x) = some tk := by
      rw [hdec]; exact find?_id_of_decomp hid h₁
    have hfilter : (b.get f).filter (fun u => u.id ≠ x) = (b.get f).erase tk := by
      rw [hdec, filter_ne_of_decomp hid h₁ h₂, erase_of_decomp hid h₁]
    have hres : moveTask f t x b =
        (b.set f ((b.get f).filter (fun u => u.id ≠ x))).set t (tk :: b.get t) := by
      simp [moveTask, hft, hfind]
    refine ⟨?_, ?_, ?_⟩
    · rw [hres, get_set_of_ne _ _ hft, get_set_same, hfilter]
    · rw [hres, get_set_same]
    · intro q hqf hqt
      rw [hres, get_set_of_ne _ _ hqt, get_set_of_ne _ _ hqf]

/-- Example board used by the witnesses below. -/
def sampleTask : Task :=
  { id := "t1", title := "Call dentist", notes := some "X", done := false,
    createdAt := 10, dueDate := some "2025-01-01" }

/-- A second example task, completed. -/
def sampleDone : Task :=
  { id := "t2", title := "B", notes := none, done := true,
    createdAt := 11, dueDate := none }

/-- An example board with two tasks in `do` and one in `schedule`. -/
def sampleBoard : BoardState :=
  { «do» := [sampleTask, sampleDone],
    schedule := [{ id := "t3", title := "C", notes := none, done := false,
                   createdAt := 12, dueDate := none }],
    delegate := [], eliminate := [] }

theorem moveTask_spec_witness :
    (moveTask .«do» .schedule "t1" sampleBoard).get .«do» =
        (sampleBoard.get .«do»).erase sampleTask ∧
    (moveTask .«do» .schedule "t1" sampleBoard).get .schedule =
        sampleTask :: sampleBoard.get .schedule ∧
    (moveTask .«do» .schedule "t1" sampleBoard).get .delegate =
        sampleBoard.get .delegate := by
  obtain ⟨h1, h2, h3⟩ :=
    (moveTask_spec sampleBoard .«do» .schedule "t1" (by decide)).2.2 sampleTask
      (by decide) (by decide) (by decide)
  exact ⟨h1, h2, h3 .delegate (by decide) (by decide)⟩

/-- C9: `clearCompleted(q)` removes exactly the tasks of quadrant `q` whose
done flag is true: the kept sequence is a sublist of the prior one (so the
not-done tasks keep their relative order), a done task occurs zero times
afterwards, a not-done task exactly as often as before, and the other three
quadrants' sequences are unchanged. -/
theorem clearCompleted_spec (b : BoardState) (q : QuadrantKey) :
    ((clearCompleted q b).get q).Sublist (b.get q) ∧
    (∀ t : Task, ((clearCompleted q b).get q).count t =
      if t.done then 0 else (b.get q).count t) ∧
    ∀ q', q' ≠ q → (clearCompleted q b).get q' = b.get q' := by
  refine ⟨?_, ?_, ?_⟩
  · rw [clearCompleted, get_set_same]
    exact List.filter_sublist _
  · intro t
    rw [clearCompleted, get_set_same]
    by_cases hd : t.done = true
    · rw [if_pos hd]
      apply List.count_eq_zero_of_not_mem
      intro hmem
      have := List.of_mem_filter hmem
      simp [hd] at this
    · rw [if_neg hd]
      exact List.count_filter (by simp [hd])
  · intro q' h
    rw [clearCompleted, get_set_of_ne _ _ h]

theorem clearCompleted_spec_witness :
    ((clearCompleted .«do» sampleBoard).get .«do»).count sampleDone =
      (if sampleDone.done then 0 else (sampleBoard.get .«do»).count sampleDone) ∧
    (clearCompleted .«do» sampleBoard).get .schedule =
      sampleBoard.get .schedule :=
  ⟨(clearCompleted_spec sampleBoard .«do»).2.1 sampleDone,
    (clearCompleted_spec sampleBoard .«do»).2.2 .schedule (by decide)⟩

/-- C2: `addTask` is a no-op (no task added, no quadrant modified) when the
title trims to empty; otherwise it prepends exactly one new task to the
front of the target quadrant whose title is the trimmed input and whose
done flag is false, whose notes are absent whenever the given notes are
missing or trim to empty, and it leaves the other three quadrants'
sequences unchanged. -/
theorem addTask_spec (b : BoardState) (q : QuadrantKey) (title : String)
    (notes dueDate : Option String) (newId : String) (now : Int) :
    (jsTrim title = "" → addTask q title notes dueDate newId now b = b) ∧
    (jsTrim title ≠ "" →
      ∃ nt : Task,
        (addTask q title notes dueDate newId now b).get q = nt :: b.get q ∧
        nt.title = jsTrim title ∧
        nt.done = false ∧
        ((notes = none ∨ ∃ s, notes = some s ∧ jsTrim s = "") → nt.notes = none) ∧
        ∀ q', q' ≠ q →
          (addTask q title notes dueDate newId now b).get q' = b.get q') := by
  constructor
  · intro h
    simp [addTask, h]
  · intro h
    have hres : addTask q title notes dueDate newId now b =
        b.set q
          ({ id := newId
             title := jsTrim title
             notes := match notes with
               | none => none
               | some s => if jsTrim s = "" then none else some (jsTrim s)
             dueDate := match dueDate with
               | none => none
               | some s => if s = "" then none else some s
             done := false
             createdAt := now } :: b.get q) := by
      simp [addTask, h]
    refine ⟨_, by rw [hres, get_set_same], rfl, rfl, ?_, ?_⟩
    · rintro (rfl | ⟨s, rfl, hs⟩)
      · rfl
      · simp [hs]
    · intro q' hq'
      rw [hres, get_set_of_ne _ _ hq']

theorem addTask_spec_witness :
    addTask .«do» "   " none none "i9" 5 sampleBoard = sampleBoard ∧
    (addTask .schedule " Plan " none none "i9" 5 sampleBoard).get .delegate =
      sampleBoard.get .delegate := by
  refine ⟨(addTask_spec sampleBoard .«do» "   " none none "i9" 5).1 (by decide), ?_⟩
  obtain ⟨nt, hcons, hti, hdone, hnotes, hframe⟩ :=
    (addTask_spec sampleBoard .schedule " Plan " none none "i9" 5).2 (by decide)
  exact hframe .delegate (by decide)

/-- When no task of the sequence carries id `x`, the update map changes
nothing. -/
theorem map_update_eq_self {x : String} {p : TaskPatch} (l : List Task)
    (hl : ∀ u ∈ l, u.id ≠ x) :
    l.map (fun t => if t.id = x then mergeTask t p else t) = l := by
  induction l with
  | nil => rfl
  | cons a l ih =>
      rw [List.map_cons, if_neg (hl a (List.mem_cons_self a l)),
        ih (fun u hu => hl u (List.mem_cons_of_mem a hu))]

theorem map_update_of_decomp {l₁ l₂ : List Task} {tk : Task} {x : String}
    {p : TaskPatch} (hid : tk.id = x)
    (h₁ : ∀ u ∈ l₁, u.id ≠ x) (h₂ : ∀ u ∈ l₂, u.id ≠ x) :
    (l₁ ++ tk :: l₂).map (fun t => if t.id = x then mergeTask t p else t) =
      l₁ ++ mergeTask tk p :: l₂ := by
  rw [List.map_append, List.map_cons, if_pos hid, map_update_eq_self l₁ h₁,
    map_update_eq_self l₂ h₂]

/-- C3: `updateTask` is a no-op when no task of quadrant `q` carries id `x`;
otherwise the task with id `x` is replaced, in place, by the merge of the
old task with the patch — every field named in the patch takes the patch's
value and every unnamed field keeps its prior value — and all other tasks
and all other quadrants are unchanged.  (The board is assumed well-formed
in the sense that quadrant `q`'s task ids are pairwise distinct.) -/
theorem updateTask_spec (b : BoardState) (q : QuadrantKey) (x : String)
    (p : TaskPatch) (hids : ((b.get q).map Task.id).Nodup) :
    ((∀ u ∈ b.get q, u.id ≠ x) → updateTask q x p b = b) ∧
    (∀ tk, tk ∈ b.get q → tk.id = x →
      ∃ l₁ l₂ nt,
        b.get q = l₁ ++ tk :: l₂ ∧
        (updateTask q x p b).get q = l₁ ++ nt :: l₂ ∧
        nt.id = p.id.getD tk.id ∧
        nt.title = p.title.getD tk.title ∧
        nt.notes = p.notes.getD tk.notes ∧
        nt.done = p.done.getD tk.done ∧
        nt.createdAt = p.createdAt.getD tk.createdAt ∧
        nt.dueDate = p.dueDate.getD tk.dueDate ∧
        ∀ q', q' ≠ q → (updateTask q x p b).get q' = b.get q') := by
  constructor
  · intro habs
    rw [updateTask, map_update_eq_self _ habs, set_get_self]
  · intro tk hmem hid
    obtain ⟨l₁, l₂, hdec, h₁, h₂⟩ := decomp_of_mem_of_nodup hmem hid hids
    refine ⟨l₁, l₂, mergeTask tk p, hdec, ?_, rfl, rfl, rfl, rfl, rfl, rfl, ?_⟩
    · rw [updateTask, get_set_same, hdec, map_update_of_decomp hid h₁ h₂]
    · intro q' hq'
      rw [updateTask, get_set_of_ne _ _ hq']

/-- The done-checkbox patch sent by the UI. -/
def doneTogglePatch : TaskPatch :=
  { done := some true }

theorem updateTask_spec_witness :
    updateTask .«do» "zz" doneTogglePatch sampleBoard = sampleBoard ∧
    (updateTask .«do» "t1" doneTogglePatch sampleBoard).get .schedule =
      sampleBoard.get .schedule := by
  refine ⟨(updateTask_spec sampleBoard .«do» "zz" doneTogglePatch
    (by decide)).1 (by decide), ?_⟩
  obtain ⟨l₁, l₂, nt, h1, h2, h3, h4, h5, h6, h7, h8, hframe⟩ :=
    (updateTask_spec sampleBoard .«do» "t1" doneTogglePatch (by decide)).2
      sampleTask (by decide) (by decide)
  exact hframe .schedule (by decide)

/-! Theorems about the persistence adapter. -/

theorem jsonToTask_taskToJson (t : Task) : jsonToTask (taskToJson t) = some t := by
  obtain ⟨i, ti, no, d, c, du⟩ := t
  cases no <;> cases du <;> rfl

theorem jsonToTasks_go_map (l : List Task) :
    jsonToTasks.go (l.map taskToJson) = some l := by
  induction l with
  | nil => rfl
  | cons t l ih =>
      rw [List.map_cons]
      simp [jsonToTasks.go, jsonToTask_taskToJson t, ih]

theorem jsonToTasks_map (l : List Task) :
    jsonToTasks (Json.arr (l.map taskToJson)) = some l := by
  rw [jsonToTasks, jsonToTasks_go_map]

theorem boardToJson_getField_do (b : BoardState) :
    (boardToJson b).getField "do" = some (Json.arr (b.«do».map taskToJson)) := rfl

theorem boardToJson_getField_schedule (b : BoardState) :
    (boardToJson b).getField "schedule" =
      some (Json.arr (b.schedule.map taskToJson)) := rfl

theorem boardToJson_getField_delegate (b : BoardState) :
    (boardToJson b).getField "delegate" =
      some (Json.arr (b.delegate.map taskToJson)) := rfl

theorem boardToJson_getField_eliminate (b : BoardState) :
    (boardToJson b).getField "eliminate" =
      some (Json.arr (b.eliminate.map taskToJson)) := rfl

theorem jsonToBoard_boardToJson (b : BoardState) :
    jsonToBoard (boardToJson b) = some b := by
  rw [jsonToBoard, boardToJson_getField_do, boardToJson_getField_schedule,
    boardToJson_getField_delegate, boardToJson_getField_eliminate]
  simp [jsonToTasks_map]

/-- C6: saving any valid board (empty quadrants and absent optional fields
included) and then loading returns a value deep-equal to the saved board:
`loadState` accepts the written snapshot and returns exactly the JSON image
of `b`, and that image is lossless — decoding it restores `b`. -/
theorem save_load_roundtrip (b : BoardState) (slot : Option (Option Json)) :
    loadState (saveState b slot) = some (boardToJson b) ∧
    jsonToBoard (boardToJson b) = some b :=
  ⟨rfl, jsonToBoard_boardToJson b⟩

/-- C7: `loadState` returns absent — rather than raising — when no value is
stored, when parsing the stored value fails, and when the parsed structure
lacks any of the four required quadrant keys. -/
theorem loadState_fallback :
    loadState none = none ∧
    loadState (some none) = none ∧
    ∀ j : Json,
      (j.getField "do" = none ∨ j.getField "schedule" = none ∨
        j.getField "delegate" = none ∨ j.getField "eliminate" = none) →
      loadState (some (some j)) = none := by
  refine ⟨rfl, rfl, ?_⟩
  intro j h
  rcases h with h | h | h | h <;> simp [loadState, Json.truthyField, h]

theorem loadState_fallback_witness :
    loadState (some (some (Json.obj [("do", Json.arr [])]))) = none :=
  loadState_fallback.2.2 (Json.obj [("do", Json.arr [])]) (Or.inr (Or.inl rfl))

/-- A stored value that passes the shallow check without being a
well-formed board: all four quadrant properties are numbers. -/
def shallowJson : Json :=
  Json.obj [("do", Json.num 1), ("schedule", Json.num 1),
    ("delegate", Json.num 1), ("eliminate", Json.num 1)]

/-- C10: the acceptance check of `loadState` is only a shallow truthiness
test on the four quadrant properties: every parsed value whose four
properties are truthy is returned unchanged — in particular `shallowJson`,
which is not a well-formed board, is accepted — while a quadrant property
that is present but falsy (`null`, `0`, `""`, `false`) is treated like a
missing one: `loadState` returns absent. -/
theorem loadState_shallow_spec :
    (∀ j : Json, j.truthyField "do" = true → j.truthyField "schedule" = true →
      j.truthyField "delegate" = true → j.truthyField "eliminate" = true →
      loadState (some (some j)) = some j) ∧
    (loadState (some (some shallowJson)) = some shallowJson ∧
      jsonToBoard shallowJson = none) ∧
    (∀ j : Json, ∀ k : String, ∀ v : Json,
      (k = "do" ∨ k = "schedule" ∨ k = "delegate" ∨ k = "eliminate") →
      j.getField k = some v → v.truthy = false →
      loadState (some (some j)) = none) := by
  refine ⟨?_, ⟨rfl, rfl⟩, ?_⟩
  · intro j h1 h2 h3 h4
    simp [loadState, Json.truthyField] at *
    simp [h1, h2, h3, h4]
  · rintro j k v (rfl | rfl | rfl | rfl) hget hv <;>
      simp [loadState, Json.truthyField, hget, hv]

theorem loadState_shallow_spec_witness :
    loadState (some (some (Json.obj [("do", Json.null), ("schedule", Json.num 1),
      ("delegate", Json.num 1), ("eliminate", Json.num 1)]))) = none :=
  loadState_shallow_spec.2.2
    (Json.obj [("do", Json.null), ("schedule", Json.num 1),
      ("delegate", Json.num 1), ("eliminate", Json.num 1)])
    "do" Json.null (Or.inl rfl) rfl rfl

/-! Theorems about the component lifecycle. -/

theorem no_save_before_hydrate (evts : List Evt) (s : StoreState)
    (hh : s.hydrated = false) (hyd : Evt.hydrate ∉ evts) :
    (evts.foldl stepEvt s).saves = s.saves ∧
    (evts.foldl stepEvt s).hydrated = false := by
  induction evts generalizing s with
  | nil => exact ⟨rfl, hh⟩
  | cons e evts ih =>
      cases e with
      | hydrate => exact absurd (List.mem_cons_self _ _) hyd
      | mutate op =>
          have hstep : stepEvt s (.mutate op) = { s with board := applyOp s.board op } := by
            simp [stepEvt, saveEffect, hh]
          rw [List.foldl_cons, hstep]
          exact ih _ hh (fun hm => hyd (List.mem_cons_of_mem _ hm))

/-- C8: a run of the component containing no hydration transition never
writes to storage (no save before the one-time load attempt completes);
once the store is hydrated, every mutation transition immediately appends a
save of the full new board to the save log and writes it to the slot, and
the store stays hydrated across all further transitions. -/
theorem hydration_ordering (slot : Option (Option Json)) (evts : List Evt) :
    (Evt.hydrate ∉ evts → (runEvts slot evts).saves = []) ∧
    (∀ s : StoreState, s.hydrated = true → ∀ op : Op,
      (stepEvt s (.mutate op)).saves =
        boardToJson (applyOp s.board op) :: s.saves ∧
      (stepEvt s (.mutate op)).slot =
        some (some (boardToJson (applyOp s.board op)))) ∧
    (∀ s : StoreState, ∀ e : Evt, s.hydrated = true →
      (stepEvt s e).hydrated = true) := by
  refine ⟨?_, ?_, ?_⟩
  · intro hnot
    exact (no_save_before_hydrate evts (initStore slot) rfl hnot).1
  · intro s hs op
    constructor <;> simp [stepEvt, saveEffect, saveState, hs]
  · intro s e hs
    cases e <;> simp [stepEvt, saveEffect, hs]

theorem hydration_ordering_witness :
    (runEvts none [Evt.mutate (Op.add .«do» "T" none none "i1" 0)]).saves = [] ∧
    (stepEvt { board := sampleBoard, hydrated := true, slot := none, saves := [] }
        (.mutate .reset)).saves = [boardToJson (applyOp sampleBoard .reset)] := by
  constructor
  · exact (hydration_ordering none [Evt.mutate (Op.add .«do» "T" none none "i1" 0)]).1
      (by decide)
  · exact ((hydration_ordering none []).2.1
      { board := sampleBoard, hydrated := true, slot := none, saves := [] } rfl .reset).1

/-! Id uniqueness across reachable boards. -/

/-- The multiset of all task ids on the board. -/
def boardIdsM (b : BoardState) : Multiset String :=
  (boardIds b : Multiset String)

theorem boardIdsM_set (b : BoardState) (q : QuadrantKey) (l : List Task) :
    boardIdsM (b.set q l) + ((b.get q).map Task.id : Multiset String) =
      boardIdsM b + (l.map Task.id : Multiset String) := by
  cases q <;>
    simp only [boardIdsM, boardIds, allTasks, BoardState.set, BoardState.get,
      List.map_append, ← Multiset.coe_add] <;>
    abel

theorem boardIdsM_set_cons (b : BoardState) (q : QuadrantKey) (tk : Task) :
    boardIdsM (b.set q (tk :: b.get q)) = tk.id ::ₘ boardIdsM b := by
  have h := boardIdsM_set b q (tk :: b.get q)
  rw [List.map_cons, ← Multiset.cons_coe, Multiset.add_cons, ← Multiset.cons_add]
    at h
  exact add_right_cancel h

theorem boardIdsM_addTask {title : String} (h : jsTrim title ≠ "")
    (q : QuadrantKey) (notes dueDate : Option String) (newId : String)
    (now : Int) (b : BoardState) :
    boardIdsM (addTask q title notes dueDate newId now b) =
      newId ::ₘ boardIdsM b := by
  have hres : boardIdsM (addTask q title notes dueDate newId now b) =
      boardIdsM (b.set q
        ({ id := newId
           title := jsTrim title
           notes := match notes with
             | none => none
             | some s => if jsTrim s = "" then none else some (jsTrim s)
           dueDate := match dueDate with
             | none => none
             | some s => if s = "" then none else some s
           done := false
           createdAt := now } :: b.get q)) := by
    simp [addTask, h]
  rw [hres, boardIdsM_set_cons]

theorem boardIdsM_updateTask {p : TaskPatch} (hp : p.id = none)
    (q : QuadrantKey) (x : String) (b : BoardState) :
    boardIdsM (updateTask q x p b) = boardIdsM b := by
  have hids : (((b.get q).map (fun t => if t.id = x then mergeTask t p else t)).map
      Task.id) = (b.get q).map Task.id := by
    rw [List.map_map]
    apply List.map_congr_left
    intro u _
    by_cases hx : u.id = x <;> simp [Function.comp, hx, mergeTask, hp]
  have h := boardIdsM_set b q
    ((b.get q).map (fun t => if t.id = x then mergeTask t p else t))
  rw [hids] at h
  rw [updateTask]
  exact add_right_cancel h

theorem boardIdsM_filter_le (b : BoardState) (q : QuadrantKey) (p : Task → Bool) :
    boardIdsM (b.set q ((b.get q).filter p)) ≤ boardIdsM b := by
  have h := boardIdsM_set b q ((b.get q).filter p)
  have hsub : ((((b.get q).filter p).map Task.id : List String) : Multiset String) ≤
      (((b.get q).map Task.id : List String) : Multiset String) :=
    Multiset.coe_le.mpr (((List.filter_sublist _).map Task.id).subperm)
  have hle : boardIdsM (b.set q ((b.get q).filter p)) +
      (((b.get q).map Task.id : List String) : Multiset String) ≤
      boardIdsM b + (((b.get q).map Task.id : List String) : Multiset String) := by
    rw [h]
    exact add_le_add_left hsub _
  exact le_of_add_le_add_right hle

theorem boardIdsM_moveTask (f t : QuadrantKey) (x : String) (b : BoardState)
    (hnodup : ((b.get f).map Task.id).Nodup) :
    boardIdsM (moveTask f t x b) = boardIdsM b := by
  by_cases hft : f = t
  · rw [moveTask, if_pos hft]
  rcases hfind : (b.get f).find? (fun u => u.id == x) with _ | tk
  · simp [moveTask, hft, hfind]
  · have hmem := List.mem_of_find?_eq_some hfind
    have hid : tk.id = x := by simpa using List.find?_some hfind
    obtain ⟨l₁, l₂, hdec, h₁, h₂⟩ := decomp_of_mem_of_nodup hmem hid hnodup
    have hfil : (b.get f).filter (fun u => u.id ≠ x) = l₁ ++ l₂ := by
      rw [hdec]
      exact filter_ne_of_decomp hid h₁ h₂
    have hres : moveTask f t x b =
        (b.set f ((b.get f).filter (fun u => u.id ≠ x))).set t
          (tk :: b.get t) := by
      simp [moveTask, hft, hfind]
    have hget : (b.set f ((b.get f).filter (fun u => u.id ≠ x))).get t = b.get t :=
      get_set_of_ne _ _ (Ne.symm hft)
    rw [hres, ← hget, boardIdsM_set_cons]
    have h1 := boardIdsM_set b f ((b.get f).filter (fun u => u.id ≠ x))
    generalize hM : boardIdsM (b.set f ((b.get f).filter (fun u => u.id ≠ x))) = M1
      at h1 ⊢
    rw [hfil, hdec] at h1
    simp only [List.map_append, List.map_cons, ← Multiset.coe_add,
      ← Multiset.cons_coe] at h1
    rw [Multiset.add_cons, Multiset.add_cons, ← Multiset.cons_add] at h1
    exact add_right_cancel h1

theorem map_id_get_sublist (b : BoardState) (q : QuadrantKey) :
    ((b.get q).map Task.id).Sublist (boardIds b) := by
  cases q <;>
    simp only [boardIds, allTasks, BoardState.get, List.map_append]
  · exact ((List.sublist_append_left _ _).trans
      (List.sublist_append_left _ _)).trans (List.sublist_append_left _ _)
  · exact (((List.sublist_append_right _ _).trans
      (List.sublist_append_left _ _)).trans (List.sublist_append_left _ _))
  · exact ((List.sublist_append_right _ _).trans (List.sublist_append_left _ _))
  · exact List.sublist_append_right _ _

theorem opsNewIds_cons (op : Op) (ops : List Op) :
    opsNewIds (op :: ops) = op.newIds ++ opsNewIds ops := rfl

/-- Along a run with pairwise-distinct fresh ids and no id-field patches,
the multiset of board ids stays duplicate-free. -/
theorem ids_nodup_foldl (ops : List Op) (b : BoardState)
    (hb : (boardIdsM b + ((opsNewIds ops : List String) : Multiset String)).Nodup)
    (hnoid : ∀ op ∈ ops, op.patchesId = false) :
    (boardIds (ops.foldl applyOp b)).Nodup := by
  induction ops generalizing b with
  | nil =>
      rw [List.foldl_nil]
      rw [opsNewIds] at hb
      simpa [boardIdsM] using hb
  | cons op ops ih =>
      rw [List.foldl_cons]
      have hnoid' : ∀ o ∈ ops, o.patchesId = false :=
        fun o ho => hnoid o (List.mem_cons_of_mem _ ho)
      have hbn : (boardIdsM b).Nodup := (Multiset.nodup_add.mp hb).1
      apply ih _ ?_ hnoid'
      cases op with
      | add q title notes dueDate newId now =>
          rw [opsNewIds_cons] at hb
          simp only [Op.newIds, List.singleton_append] at hb
          by_cases hblank : jsTrim title = ""
          · have hone : applyOp b (.add q title notes dueDate newId now) = b := by
              simp [applyOp, addTask, hblank]
            rw [hone]
            refine Multiset.nodup_of_le (add_le_add_left ?_ _) hb
            rw [← Multiset.cons_coe]
            exact Multiset.le_cons_self _ _
          · have hone : boardIdsM (applyOp b (.add q title notes dueDate newId now)) =
                newId ::ₘ boardIdsM b := by
              rw [applyOp]
              exact boardIdsM_addTask hblank q notes dueDate newId now b
            rw [hone]
            have heq : (newId ::ₘ boardIdsM b) +
                ((opsNewIds ops : List String) : Multiset String) =
                boardIdsM b +
                ((newId :: opsNewIds ops : List String) : Multiset String) := by
              rw [← Multiset.cons_coe, Multiset.cons_add, Multiset.add_cons]
            rw [heq]
            exact hb
      | update q x p =>
          have hp : p.id = none := by
            have := hnoid _ (List.mem_cons_self _ _)
            rw [Op.patchesId] at this
            exact Option.not_isSome_iff_eq_none.mp (by simp [this])
          have hone : boardIdsM (applyOp b (.update q x p)) = boardIdsM b := by
            rw [applyOp]
            exact boardIdsM_updateTask hp q x b
          rw [hone]
          rw [opsNewIds_cons] at hb
          simp only [Op.newIds, List.nil_append] at hb
          exact hb
      | del q x =>
          rw [opsNewIds_cons] at hb
          simp only [Op.newIds, List.nil_append] at hb
          refine Multiset.nodup_of_le (add_le_add_right ?_ _) hb
          rw [applyOp, deleteTask]
          exact boardIdsM_filter_le b q _
      | clear q =>
          rw [opsNewIds_cons] at hb
          simp only [Op.newIds, List.nil_append] at hb
          refine Multiset.nodup_of_le (add_le_add_right ?_ _) hb
          rw [applyOp, clearCompleted]
          exact boardIdsM_filter_le b q _
      | move f t x =>
          have hfn : ((b.get f).map Task.id).Nodup := by
            refine List.Sublist.nodup (map_id_get_sublist b f) ?_
            simpa [boardIdsM] using hbn
          have hone : boardIdsM (applyOp b (.move f t x)) = boardIdsM b := by
            rw [applyOp]
            exact boardIdsM_moveTask f t x b hfn
          rw [hone]
          rw [opsNewIds_cons] at hb
          simp only [Op.newIds, List.nil_append] at hb
          exact hb
      | reset =>
          rw [opsNewIds_cons] at hb
          simp only [Op.newIds, List.nil_append] at hb
          refine Multiset.nodup_of_le (add_le_add_right ?_ _) hb
          rw [applyOp, resetAll]
          have hz : boardIdsM emptyBoard = 0 := rfl
          rw [hz]
          exact Multiset.zero_le _

/-- An operation sequence whose update patches the `id` field: the two
`addTask` invocations receive distinct fresh ids, then `updateTask`
rewrites the second task's id to collide with the first. -/
def idPatchOps : List Op :=
  [.add .«do» "a" none none "i1" 0,
   .add .«do» "b" none none "i2" 0,
   .update .«do» "i2" { id := some "i1" }]

/-- C4 counterexample: a board reachable from the empty board by two
`addTask` invocations with distinct fresh ids followed by one `updateTask`
whose `Partial<Task>` patch sets the `id` field carries the id "i1" twice
in quadrant `do` — ids are not unique across reachable states. -/
theorem ids_unique_cex : ¬ (boardIds (runOps idPatchOps)).Nodup := by decide

/-- C4 amended: along every operation sequence from the empty board in
which the ids supplied to `addTask` are pairwise distinct (fresh, as
`uid()` is meant to behave) and no `updateTask` patch sets the `id` field
(the UI never patches ids), every task id appears at most once on the
whole board — hence in at most one quadrant's sequence. -/
theorem ids_unique (ops : List Op) (hfresh : (opsNewIds ops).Nodup)
    (hnoid : ∀ op ∈ ops, op.patchesId = false) :
    (boardIds (runOps ops)).Nodup := by
  apply ids_nodup_foldl ops emptyBoard ?_ hnoid
  have hz : boardIdsM emptyBoard = 0 := rfl
  rw [hz, zero_add]
  exact Multiset.coe_nodup.mpr hfresh

theorem ids_unique_witness :
    (boardIds (runOps [Op.add .«do» "a" none none "i1" 0,
      Op.move .«do» .schedule "i1",
      Op.add .«do» "b" none none "i2" 1])).Nodup :=
  ids_unique _ (by decide) (by decide)

/-! The title discipline. -/

theorem dropWhile_head_not {α : Type} {p : α → Bool} {l : List α}
    (h : ∀ a, l.head? = some a → p a = false) : l.dropWhile p = l := by
  cases l with
  | nil => rfl
  | cons a l =>
      rw [List.dropWhile_cons, h a rfl, if_neg Bool.false_ne_true]

theorem head_dropWhile_false {α : Type} (p : α → Bool) (l : List α) :
    ∀ a, (l.dropWhile p).head? = some a → p a = false := by
  intro a ha
  have h := List.head?_dropWhile_not p l
  rw [ha] at h
  exact h

theorem trim_list_idem {α : Type} (p : α → Bool) (l : List α) :
    (((((l.dropWhile p).reverse.dropWhile p).reverse.dropWhile
        p).reverse.dropWhile p).reverse) =
      ((l.dropWhile p).reverse.dropWhile p).reverse := by
  have hA := head_dropWhile_false p l
  have hS := head_dropWhile_false p (l.dropWhile p).reverse
  have hpre : ((l.dropWhile p).reverse.dropWhile p).reverse <+: l.dropWhile p := by
    have hsuf : ((l.dropWhile p).reverse.dropWhile p) <:+ (l.dropWhile p).reverse :=
      List.dropWhile_suffix p
    have h := hsuf.reverse
    rwa [List.reverse_reverse] at h
  have hheadB : ∀ a,
      ((l.dropWhile p).reverse.dropWhile p).reverse.head? = some a →
      p a = false := by
    intro a ha
    obtain ⟨t, ht⟩ := hpre
    apply hA
    rw [← ht, List.head?_append, ha, Option.or_some]
  rw [dropWhile_head_not hheadB, List.reverse_reverse, dropWhile_head_not hS]

theorem jsTrim_idem (s : String) : jsTrim (jsTrim s) = jsTrim s :=
  congrArg String.mk (trim_list_idem Char.isWhitespace s.data)

theorem mem_allTasks_set {b : BoardState} {q : QuadrantKey} {l : List Task}
    {t : Task} (h : t ∈ allTasks (b.set q l)) : t ∈ l ∨ t ∈ allTasks b := by
  obtain ⟨d, s, g, e⟩ := b
  cases q <;> simp [allTasks, BoardState.set] at h ⊢ <;> tauto

theorem mem_get_allTasks {b : BoardState} {q : QuadrantKey} {t : Task}
    (h : t ∈ b.get q) : t ∈ allTasks b := by
  obtain ⟨d, s, g, e⟩ := b
  cases q <;> simp [allTasks, BoardState.get] at h ⊢ <;> tauto

/-- One step of the title invariant: every operation whose update patch
keeps the UI's title discipline preserves "titles are trimmed and
non-empty". -/
theorem titles_step {b : BoardState} {op : Op}
    (hb : ∀ t ∈ allTasks b, jsTrim t.title = t.title ∧ t.title ≠ "")
    (hop : op.uiTitle = true) :
    ∀ t ∈ allTasks (applyOp b op), jsTrim t.title = t.title ∧ t.title ≠ "" := by
  cases op with
  | add q title notes dueDate newId now =>
      by_cases hblank : jsTrim title = ""
      · have hone : addTask q title notes dueDate newId now b = b := by
          simp [addTask, hblank]
        intro t ht
        rw [applyOp, hone] at ht
        exact hb t ht
      · clear hop
        have hres : addTask q title notes dueDate newId now b =
            b.set q
              ({ id := newId
                 title := jsTrim title
                 notes := match notes with
                   | none => none
                   | some s => if jsTrim s = "" then none else some (jsTrim s)
                 dueDate := match dueDate with
                   | none => none
                   | some s => if s = "" then none else some s
                 done := false
                 createdAt := now } :: b.get q) := by
          simp [addTask, hblank]
        intro t ht
        rw [applyOp, hres] at ht
        rcases mem_allTasks_set ht with h1 | h2
        · rcases List.mem_cons.mp h1 with rfl | h1'
          · exact ⟨jsTrim_idem title, hblank⟩
          · exact hb _ (mem_get_allTasks h1')
        · exact hb _ h2
  | update q x p =>
      intro t ht
      rw [applyOp, updateTask] at ht
      rcases mem_allTasks_set ht with h1 | h2
      · rcases List.mem_map.mp h1 with ⟨u, hu, rfl⟩
        by_cases hx : u.id = x
        · rw [if_pos hx]
          rcases hp : p.title with _ | s
          · have : (mergeTask u p).title = u.title := by simp [mergeTask, hp]
            rw [this]
            exact hb u (mem_get_allTasks hu)
          · simp only [Op.uiTitle, hp] at hop
            obtain ⟨hts, hne⟩ : jsTrim s = s ∧ s ≠ "" := by simpa using hop
            have : (mergeTask u p).title = s := by simp [mergeTask, hp]
            rw [this]
            exact ⟨hts, hne⟩
        · rw [if_neg hx]
          exact hb u (mem_get_allTasks hu)
      · exact hb _ h2
  | del q x =>
      intro t ht
      rw [applyOp, deleteTask] at ht
      rcases mem_allTasks_set ht with h1 | h2
      · exact hb _ (mem_get_allTasks (List.mem_of_mem_filter h1))
      · exact hb _ h2
  | clear q =>
      intro t ht
      rw [applyOp, clearCompleted] at ht
      rcases mem_allTasks_set ht with h1 | h2
      · exact hb _ (mem_get_allTasks (List.mem_of_mem_filter h1))
      · exact hb _ h2
  | move f t' x =>
      intro t ht
      rw [applyOp] at ht
      by_cases hft : f = t'
      · have hone : moveTask f t' x b = b := by rw [moveTask, if_pos hft]
        rw [hone] at ht
        exact hb t ht
      rcases hfind : (b.get f).find? (fun u => u.id == x) with _ | tk
      · have hone : moveTask f t' x b = b := by simp [moveTask, hft, hfind]
        rw [hone] at ht
        exact hb t ht
      · have hres : moveTask f t' x b =
            (b.set f ((b.get f).filter (fun u => u.id ≠ x))).set t'
              (tk :: b.get t') := by
          simp [moveTask, hft, hfind]
        rw [hres] at ht
        rcases mem_allTasks_set ht with h1 | h2
        · rcases List.mem_cons.mp h1 with rfl | h1'
          · exact hb _ (mem_get_allTasks (List.mem_of_find?_eq_some hfind))
          · exact hb _ (mem_get_allTasks h1')
        · rcases mem_allTasks_set h2 with h3 | h4
          · exact hb _ (mem_get_allTasks (List.mem_of_mem_filter h3))
          · exact hb _ h4
  | reset =>
      intro t ht
      rw [applyOp, resetAll] at ht
      simp [allTasks, emptyBoard] at ht

theorem titles_foldl (ops : List Op) (b : BoardState)
    (hb : ∀ t ∈ allTasks b, jsTrim t.title = t.title ∧ t.title ≠ "")
    (hui : ∀ op ∈ ops, op.uiTitle = true) :
    ∀ t ∈ allTasks (ops.foldl applyOp b),
      jsTrim t.title = t.title ∧ t.title ≠ "" := by
  induction ops generalizing b with
  | nil => exact hb
  | cons op ops ih =>
      rw [List.foldl_cons]
      exact ih _ (titles_step hb (hui op (List.mem_cons_self _ _)))
        (fun o ho => hui o (List.mem_cons_of_mem _ ho))

/-- C5 counterexample: `updateTask` performs no title validation — a patch
carrying the empty title is applied as-is: the board changes and the task's
stored title becomes empty. -/
theorem blank_title_cex :
    updateTask .«do» "t1" { title := some "" } sampleBoard ≠ sampleBoard ∧
    ((updateTask .«do» "t1" { title := some "" } sampleBoard).get .«do»).any
      (fun t => t.title == "") = true := by decide

/-- C5 amended: `updateTask` applies any patch unconditionally, so the
blank-title rejection lives in the UI edit handler `saveEdit`, which trims
the draft title and is a no-op when the trim is empty; and along every
operation sequence from the empty board whose update patches carry only
trimmed non-empty titles (the only patches the UI produces), every stored
task's title equals its own trimmed form and is non-empty. -/
theorem titles_invariant (ops : List Op) (hui : ∀ op ∈ ops, op.uiTitle = true) :
    (∀ t ∈ allTasks (runOps ops), jsTrim t.title = t.title ∧ t.title ≠ "") ∧
    (∀ (q : QuadrantKey) (taskId draftTitle draftNotes draftDue : String)
      (b : BoardState), jsTrim draftTitle = "" →
      saveEdit q taskId draftTitle draftNotes draftDue b = b) := by
  constructor
  · exact titles_foldl ops emptyBoard (by simp [allTasks, emptyBoard]) hui
  · intro q taskId dt dn dd b h
    simp [saveEdit, h]

theorem titles_invariant_witness :
    (jsTrim "b" = "b" ∧ "b" ≠ "") ∧
    saveEdit .«do» "i1" "   " "n" "" sampleBoard = sampleBoard := by
  have h := titles_invariant
    [Op.add .«do» " a " none none "i1" 0,
     Op.update .«do» "i1" { title := some "b" }] (by decide)
  exact ⟨h.1 (⟨"i1", "b", none, false, 0, none⟩ : Task) (by decide),
    h.2 .«do» "i1" "   " "n" "" sampleBoard (by decide)⟩

end Eisenhower
